import Mathlib

/-!
# Verification of the video-library server core

Shallow embedding, in Lean, of the path-sanitization, directory-listing,
recursive-search and byte-range streaming logic of `server.js`, together
with proofs and refutations of the specification's claims about it.

Paths and header strings are modelled as lists of characters (`Chars`).
The Node `path` (POSIX flavour) primitives used by the source —
`path.normalize`, `path.resolve`, `path.sep`, `path.extname`,
`path.dirname` — are reproduced segment-by-segment from their algorithms.
The filesystem visible under the configured root directory is modelled as
a finite tree of named entries (`FSNode`), directory reads and file stats
being total lookups into that tree.
-/

namespace VideoLibrary

/-- Character-list strings: the representation used throughout the model. -/
abbrev Chars := List Char

/-- Coerce a Lean string literal to the model representation. -/
def S (s : String) : Chars := s.data

/-! ## Node `path` (POSIX) primitives -/

/-- `String.prototype.split(c)` for a one-character separator: the list of
(possibly empty) chunks between occurrences of `c`. -/
def splitCh (c : Char) : Chars → List Chars
  | [] => [[]]
  | x :: xs =>
    let r := splitCh c xs
    if x = c then [] :: r
    else
      match r with
      | [] => [[x]]
      | y :: ys => (x :: y) :: ys

/-- The segment loop of Node's `normalizeString`: drops empty and `.`
segments, resolves `..` against the accumulated output, and keeps
unmatched `..` segments only when `allowAboveRoot` is set. -/
def normSegsAux (allowAboveRoot : Bool) (acc : List Chars) : List Chars → List Chars
  | [] => acc
  | s :: rest =>
    if s = [] ∨ s = ['.'] then normSegsAux allowAboveRoot acc rest
    else if s = ['.', '.'] then
      if acc ≠ [] ∧ acc.getLast? ≠ some ['.', '.'] then
        normSegsAux allowAboveRoot acc.dropLast rest
      else if allowAboveRoot then
        normSegsAux allowAboveRoot (acc ++ [['.', '.']]) rest
      else normSegsAux allowAboveRoot acc rest
    else normSegsAux allowAboveRoot (acc ++ [s]) rest

/-- Join segments with `/` separators (no leading or trailing separator). -/
def joinSegs : List Chars → Chars
  | [] => []
  | [s] => s
  | s :: rest => s ++ '/' :: joinSegs rest

/-- Node `path.posix.normalize`. -/
def pathNormalize (p : Chars) : Chars :=
  if p = [] then ['.']
  else
    let isAbs := p.head? = some '/'
    let trailing := p.getLast? = some '/'
    let core := joinSegs (normSegsAux (!isAbs) [] (splitCh '/' p))
    if core = [] then
      if isAbs then ['/'] else if trailing then ['.', '/'] else ['.']
    else
      let core2 := if trailing then core ++ ['/'] else core
      if isAbs then '/' :: core2 else core2

/-- Node `path.posix.resolve(p)` for an absolute `p` (the configured video
directory is absolute, so the working directory is never consulted). -/
def pathResolve1 (p : Chars) : Chars :=
  '/' :: joinSegs (normSegsAux false [] (splitCh '/' p))

/-- Node `path.posix.resolve(base, rel)` for an absolute `base`: an empty
`rel` is skipped, an absolute `rel` wins, otherwise the two are joined
with a separator and canonicalized. -/
def pathResolve2 (base rel : Chars) : Chars :=
  if rel.head? = some '/' then pathResolve1 rel
  else if rel = [] then pathResolve1 base
  else pathResolve1 (base ++ '/' :: rel)

/-- The regex `^(\.\.(\/|\\|$))+` of `sanitizePath`: repeatedly strip a
leading `..` segment terminated by `/`, `\` or end of string. -/
def stripLeadingDotDots : Chars → Chars
  | '.' :: '.' :: '/' :: rest => stripLeadingDotDots rest
  | '.' :: '.' :: '\\' :: rest => stripLeadingDotDots rest
  | ['.', '.'] => []
  | l => l

/-- `sanitizePath` from `server.js` (lines 163-185): resolve the client
path against the root, then admit the result only when it is the base
directory itself or extends it past a path separator; a thrown
"directory traversal detected" error is modelled as `none`. -/
def sanitizePath (root userPath : Chars) : Option Chars :=
  let baseDir := pathResolve1 root
  if userPath = [] then some baseDir
  else
    let normalized := stripLeadingDotDots (pathNormalize userPath)
    let fullPath := pathResolve2 baseDir normalized
    if fullPath == baseDir || (baseDir ++ ['/']).isPrefixOf fullPath then
      some fullPath
    else none

/-! ## Media classification -/

/-- Node `path.posix.extname`: the suffix of the basename from its last
dot to the end, empty when the basename has no dot, only a leading dot,
or is `..`. -/
def extnameChars (p : Chars) : Chars :=
  let base := (splitCh '/' p).getLastD []
  if base = ['.', '.'] then []
  else
    match splitCh '.' base with
    | [] => []
    | [_] => []
    | [[], _] => []
    | parts => '.' :: parts.getLastD []

/-- Lowercase a string character-wise (ASCII, as all extensions here are). -/
def lowerChars (l : Chars) : Chars := l.map Char.toLower

/-- `isVideoFile`: the lowercased extension is in the configured
`allowedExtensions` list. -/
def isVideoFile (exts : List Chars) (filename : Chars) : Bool :=
  exts.contains (lowerChars (extnameChars filename))

/-- `isImageFile` against `allowedImageExtensions` (or its default list). -/
def isImageFile (imgExts : List Chars) (filename : Chars) : Bool :=
  imgExts.contains (lowerChars (extnameChars filename))

/-- `getFileType`: coarse bucket derived from the extension. -/
def getFileType (exts imgExts : List Chars) (filename : Chars) : Chars :=
  if isVideoFile exts filename then S "video"
  else if isImageFile imgExts filename then S "image"
  else
    let ext := lowerChars (extnameChars filename)
    if [S ".pdf", S ".doc", S ".docx", S ".txt", S ".rtf", S ".odt"].contains ext then S "document"
    else if [S ".mp3", S ".wav", S ".flac", S ".aac", S ".ogg", S ".m4a", S ".wma"].contains ext then S "audio"
    else if [S ".zip", S ".rar", S ".7z", S ".tar", S ".gz", S ".bz2"].contains ext then S "archive"
    else if [S ".js", S ".py", S ".java", S ".cpp", S ".c", S ".html", S ".css", S ".json", S ".xml"].contains ext then S "code"
    else S "file"

/-- `isMediaFile` accepts every file ("Accept all files now"). -/
def isMediaFile : Bool := true

/-! ## Range-request streaming (`/api/video`, lines 890-918) -/

/-- `String.prototype.replace(/pat/, '')`: remove the first occurrence of
`pat` (used for `range.replace(/bytes=/, '')`). -/
def removeFirst (pat : Chars) : Chars → Chars
  | [] => []
  | x :: xs =>
    if pat.isPrefixOf (x :: xs) then (x :: xs).drop pat.length
    else x :: removeFirst pat xs

/-- `parseInt(s, 10)` on the nonnegative strings split out of a range
header: the value of the leading run of decimal digits, `NaN` (`none`)
when there is no leading digit. -/
def parseIntNat (l : Chars) : Option Nat :=
  let ds := l.takeWhile Char.isDigit
  if ds = [] then none
  else some (ds.foldl (fun a c => a * 10 + (c.toNat - 48)) 0)

/-- Digit loop for `decRepr`; the fuel argument (always supplied larger
than the number) only makes the division recursion structural. -/
def decReprAux : Nat → Nat → Chars
  | 0, _ => []
  | fuel + 1, n =>
    if n < 10 then [Char.ofNat (48 + n)]
    else decReprAux fuel (n / 10) ++ [Char.ofNat (48 + n % 10)]

/-- Decimal rendering of a natural number, as JS template literals print
the parsed range numbers and the file size. -/
def decRepr (n : Nat) : Chars := decReprAux (n + 1) n

/-- Bytes actually delivered by piping `fs.createReadStream(p, {start, end})`
for a file of `fileSize` bytes: the inclusive span clipped at end of file,
and nothing at all when `start` is at or past end of file. -/
def readStreamLen (fileSize start e : Nat) : Nat :=
  if start < fileSize then min e (fileSize - 1) - start + 1 else 0

/-- The headers and read bounds of a 206 response. -/
structure RangeResp where
  contentRange : Chars
  contentLength : Nat
  readStart : Nat
  readEnd : Nat
  bodyLen : Nat
deriving DecidableEq

/-- Outcome of the streaming section of the `/api/video` handler, for a
file whose stat succeeded with size `fileSize`. -/
inductive StreamOut where
  /-- `res.writeHead(206, ...)` followed by piping the ranged stream. -/
  | part206 (r : RangeResp)
  /-- `res.writeHead(200, ...)` and the whole file piped. -/
  | full200 (contentLength bodyLen : Nat)
  /-- `fs.createReadStream` rejected the parsed numbers synchronously
  (`NaN` bounds or `start > end`), so the surrounding `catch` answers 500. -/
  | err500
deriving DecidableEq

/-- Lines 890-918 of `server.js`: the range branch parses
`range.replace(/bytes=/, '').split('-')`, takes `start` from the first
part, defaults `end` to `fileSize - 1` when the second part is absent or
empty, and blindly builds the stream and a 206 from those numbers. -/
def streamVideo (fileSize : Nat) (range : Option Chars) : StreamOut :=
  match range with
  | none => .full200 fileSize fileSize
  | some r =>
    let parts := splitCh '-' (removeFirst (S "bytes=") r)
    let startN := parseIntNat (parts.headD [])
    let endN : Option Nat :=
      match parts.get? 1 with
      | some s => if s ≠ [] then parseIntNat s else some (fileSize - 1)
      | none => some (fileSize - 1)
    match startN, endN with
    | some s, some e =>
      if s ≤ e then
        .part206
          { contentRange := S "bytes " ++ decRepr s ++ '-' :: decRepr e ++ '/' :: decRepr fileSize
            contentLength := e - s + 1
            readStart := s
            readEnd := e
            bodyLen := readStreamLen fileSize s e }
      else .err500
    | _, _ => .err500

/-! ## Filesystem model

The tree of entries under the configured video directory. Directory
reads (`fs.promises.readdir`) enumerate an entry list in order; stats
(`fs.promises.stat`) read the recorded size. -/

/-- A filesystem node: a regular file with its size, or a directory with
its named children in readdir order. -/
inductive FSNode where
  | file (size : Nat) : FSNode
  | dir (entries : List (Chars × FSNode)) : FSNode

/-- Look a node up by its relative path segments. -/
def lookupNode : FSNode → List Chars → Option FSNode
  | n, [] => some n
  | .file _, _ :: _ => none
  | .dir es, s :: rest =>
    match (es.find? (fun e => e.1 == s)).map (·.2) with
    | none => none
    | some n => lookupNode n rest

/-- `item.name.startsWith('.')`: the hidden-entry test. -/
def isHidden (name : Chars) : Bool := name.head? == some '.'

/-! ## Single-level listing (`readDirectoryRecursive`, lines 247-289) -/

/-- One folder record of a listing: `{name, path}`. -/
structure FolderEntry where
  name : Chars
  relPath : Chars
deriving DecidableEq

/-- One file record of a listing: `{name, path, type, size}` (the `mtime`
field of the source is not tracked by the filesystem model). -/
structure FileEntry where
  name : Chars
  relPath : Chars
  ftype : Chars
  size : Nat
deriving DecidableEq

/-- The loop body of `readDirectoryRecursive`: walk the entries in
readdir order, skip hidden names, record subdirectories as folders and
files (every file, since `isMediaFile` is constantly true) with their
stat size. `relBase` is the directory's path relative to the root. -/
def collectListing (exts imgExts : List Chars) (relBase : List Chars) :
    List (Chars × FSNode) → List FolderEntry × List FileEntry
  | [] => ([], [])
  | (name, node) :: rest =>
    let r := collectListing exts imgExts relBase rest
    if isHidden name then r
    else
      match node with
      | .dir _ => (⟨name, joinSegs (relBase ++ [name])⟩ :: r.1, r.2)
      | .file size =>
        (r.1, ⟨name, joinSegs (relBase ++ [name]),
               getFileType exts imgExts name, size⟩ :: r.2)

/-- Result of `readDirectoryRecursive`: either the `{error: 'Maximum
recursion depth exceeded'}` object or a `{folders, files}` listing. -/
inductive ListingOut where
  | depthErr
  | ok (folders : List FolderEntry) (files : List FileEntry)
deriving DecidableEq

/-- `readDirectoryRecursive(dirPath, currentDepth)`: despite its name the
function never calls itself; it guards the depth argument and produces a
single-level listing of the directory's entries. -/
def readDirectoryRecursive (maxRecursionDepth : Nat) (exts imgExts : List Chars)
    (relBase : List Chars) (entries : List (Chars × FSNode))
    (currentDepth : Nat) : ListingOut :=
  if currentDepth > maxRecursionDepth then .depthErr
  else
    let r := collectListing exts imgExts relBase entries
    .ok r.1 r.2

/-! ## Recursive search (`searchVideosRecursive`, lines 340-385) -/

/-- Search configuration: the extension lists, `config.maxRecursionDepth`,
the `maxResults` parameter and the pre-lowercased query. -/
structure SearchCfg where
  exts : List Chars
  imgExts : List Chars
  maxDepth : Nat
  maxResults : Nat
  lowerQuery : Chars
deriving DecidableEq

/-- One search hit: `{name, path, folder, type, size}` (the `mtime` field
of the source is not tracked by the filesystem model). -/
structure SearchResult where
  name : Chars
  relPath : Chars
  folder : Chars
  ftype : Chars
  size : Nat
deriving DecidableEq

/-- Node `path.posix.dirname`: everything before the last separator that
is not part of a trailing separator run (index 0 is never treated as
that separator), `.` when there is none, with the absolute-path special
cases. -/
def dirnameStr (p : Chars) : Chars :=
  match p with
  | [] => ['.']
  | c0 :: rest =>
    let rr := rest.reverse.dropWhile (fun c => c = '/')
    match rr.dropWhile (fun c => c ≠ '/') with
    | [] => if c0 = '/' then ['/'] else ['.']
    | _ :: revA =>
      if c0 = '/' ∧ revA.reverse = [] then ['/', '/'] else c0 :: revA.reverse

/-- The `folder` field: `path.dirname(relativePath) || 'Home'` — the
fallback fires only on the empty string, the sole falsy string. -/
def mkFolder (rel : Chars) : Chars :=
  let d := dirnameStr rel
  if d = [] then S "Home" else d

/-- Ghost record of one executed `fs.promises.readdir`: which directory
(as root-relative segments), at which recursion depth, and how many
results had accumulated when the guard admitted it. -/
structure DirRead where
  relSegs : List Chars
  depth : Nat
  accLen : Nat
deriving DecidableEq

/-- `String.prototype.includes`: `containsSub needle hay` is true when
`needle` occurs contiguously inside `hay` (always true for an empty
needle). -/
def containsSub (needle : Chars) : Chars → Bool
  | [] => needle.isPrefixOf []
  | x :: xs => needle.isPrefixOf (x :: xs) || containsSub needle xs

/-- The `for (const item of items)` loop of `searchDir`, walking one
directory's entries in readdir order: hidden entries are skipped; a
subdirectory re-enters `searchDir` at `depth + 1` (that recursive call —
its depth/result-cap guard, its readdir, its own loop — is inlined here,
a fuel argument making the nested recursion structural; fuel is always
supplied above the tree size, so the `0` branch is never reached); a
file is appended to the results when its lowercased name contains the
lowercased query — with no re-check of `maxResults`. Besides the result
list it returns the ghost log of the readdir calls performed. -/
def searchItems (cfg : SearchCfg) : Nat → List (Chars × FSNode) → List Chars → Nat →
    List SearchResult → List SearchResult × List DirRead
  | 0, _, _, _, acc => (acc, [])
  | _ + 1, [], _, _, acc => (acc, [])
  | fuel + 1, (name, node) :: rest, relSegs, depth, acc =>
    if isHidden name then searchItems cfg fuel rest relSegs depth acc
    else
      match node with
      | .dir es =>
        let sub : List SearchResult × List DirRead :=
          if depth + 1 > cfg.maxDepth ∨ acc.length ≥ cfg.maxResults then (acc, [])
          else
            let r := searchItems cfg fuel es (relSegs ++ [name]) (depth + 1) acc
            (r.1, (⟨relSegs ++ [name], depth + 1, acc.length⟩ : DirRead) :: r.2)
        let r2 := searchItems cfg fuel rest relSegs depth sub.1
        (r2.1, sub.2 ++ r2.2)
      | .file size =>
        if containsSub cfg.lowerQuery (lowerChars name) then
          let rel := joinSegs (relSegs ++ [name])
          searchItems cfg fuel rest relSegs depth
            (acc ++ [⟨name, rel, mkFolder rel,
                      getFileType cfg.exts cfg.imgExts name, size⟩])
        else searchItems cfg fuel rest relSegs depth acc

/-- `searchDir(dirPath, depth)` from the source: return at once past the
depth cap or once `maxResults` results have accumulated, otherwise read
the directory and walk its items. The ghost `fuel` argument (threaded
down unchanged from the top-level call, which must supply a value larger
than the number of tree nodes) exists only to make the nested recursion
structural; no property proved below depends on its value. -/
def searchDir (cfg : SearchCfg) (fuel : Nat) (entries : List (Chars × FSNode))
    (relSegs : List Chars) (depth : Nat) (acc : List SearchResult) :
    List SearchResult × List DirRead :=
  if depth > cfg.maxDepth ∨ acc.length ≥ cfg.maxResults then (acc, [])
  else
    let r := searchItems cfg fuel entries relSegs depth acc
    (r.1, (⟨relSegs, depth, acc.length⟩ : DirRead) :: r.2)

/-- `searchVideosRecursive(startPath, query, maxResults)`: lowercase the
query once and run `searchDir` on the start directory at depth 0 with an
empty accumulator. `startRelSegs` is the start directory's path relative
to the root; `fuel` is the ghost structural-recursion bound. -/
def searchVideosRecursive (exts imgExts : List Chars) (maxRecursionDepth : Nat)
    (fuel : Nat) (startEntries : List (Chars × FSNode)) (startRelSegs : List Chars)
    (query : Chars) (maxResults : Nat := 100) :
    List SearchResult × List DirRead :=
  searchDir ⟨exts, imgExts, maxRecursionDepth, maxResults, lowerChars query⟩
    fuel startEntries startRelSegs 0 []

/-! ## The `/api/video` and `/api/browse` handlers

The handlers run behind `requireAuth`; the models below describe the
authenticated case. Each handler body is wrapped in `try { ... } catch
(error) { res.status(500).json({error}) }`, so a throw from
`sanitizePath` or a rejected `fs.promises.stat` answers 500. The
filesystem visible to `stat`/`readdir` is the entry tree under the root;
a resolved absolute path is located in it by stripping the base-directory
prefix (sound by `sanitizePath`'s containment check) and splitting the
remainder at separators. -/

/-- Locate the filesystem node a resolved absolute path denotes, the
root directory itself included. -/
def relSegsOf (base full : Chars) : List Chars :=
  if full == base then [] else splitCh '/' (full.drop (base.length + 1))

/-- Response of the `/api/video` handler. `errJson` carries no file
bytes; the stream constructors record which absolute path the served
bytes are read from. -/
inductive VideoResp where
  | errJson (status : Nat)
  | stream206 (srcAbs : Chars) (r : RangeResp)
  | stream200 (srcAbs : Chars) (contentLength bodyLen : Nat)
deriving DecidableEq

/-- `GET /api/video` (lines 875-923): reject a missing `path` with 400;
resolve it (a traversal throw → 500); stat it (a missing path → 500, a
directory or a non-video extension → 400); then stream per the range
header. `qpath = none` models an absent query parameter. -/
def videoHandler (exts : List Chars) (root : Chars) (fs : List (Chars × FSNode))
    (qpath : Option Chars) (range : Option Chars) : VideoResp :=
  match qpath with
  | none => .errJson 400
  | some qp =>
    match sanitizePath root qp with
    | none => .errJson 500
    | some full =>
      match lookupNode (.dir fs) (relSegsOf (pathResolve1 root) full) with
      | none => .errJson 500
      | some (.dir _) => .errJson 400
      | some (.file size) =>
        if !isVideoFile exts full then .errJson 400
        else
          match streamVideo size range with
          | .err500 => .errJson 500
          | .part206 r => .stream206 full r
          | .full200 cl bl => .stream200 full cl bl

/-- Response of the `/api/browse` handler: an error status with a JSON
body, a listing, or — were `readDirectoryRecursive`'s depth branch ever
taken — its `{error}` object serialized with status 200. -/
inductive BrowseResp where
  | errJson (status : Nat)
  | listing (folders : List FolderEntry) (files : List FileEntry)
  | depthErrJson
deriving DecidableEq

/-- `GET /api/browse` (lines 320-337): default the path to the root,
resolve it (traversal throw → 500), stat it (missing → 500, non-directory
→ 400) and answer `readDirectoryRecursive(fullPath)` — invoked with its
`currentDepth` default of 0. -/
def browseHandler (maxRecursionDepth : Nat) (exts imgExts : List Chars)
    (root : Chars) (fs : List (Chars × FSNode)) (qpath : Chars) : BrowseResp :=
  match sanitizePath root qpath with
  | none => .errJson 500
  | some full =>
    let segs := relSegsOf (pathResolve1 root) full
    match lookupNode (.dir fs) segs with
    | none => .errJson 500
    | some (.file _) => .errJson 400
    | some (.dir entries) =>
      match readDirectoryRecursive maxRecursionDepth exts imgExts segs entries 0 with
      | .depthErr => .depthErrJson
      | .ok fo fi => .listing fo fi

/-! ## Helper lemmas: decimal rendering and header splitting -/

theorem digitChar_isDigit {d : Nat} (h : d < 10) :
    (Char.ofNat (48 + d)).isDigit = true := by
  interval_cases d <;> decide

theorem digitChar_toNat {d : Nat} (h : d < 10) :
    (Char.ofNat (48 + d)).toNat - 48 = d := by
  interval_cases d <;> decide

theorem decReprAux_digits :
    ∀ fuel n, n < fuel → ∀ c ∈ decReprAux fuel n, c.isDigit = true := by
  intro fuel
  induction fuel with
  | zero => intro n h; omega
  | succ f ih =>
    intro n h c hc
    by_cases h10 : n < 10
    · simp only [decReprAux, if_pos h10] at hc
      simp at hc
      subst hc
      exact digitChar_isDigit h10
    · simp only [decReprAux, if_neg h10, List.mem_append] at hc
      rcases hc with hc | hc
      · have hdiv : n / 10 < n := Nat.div_lt_self (by omega) (by omega)
        exact ih (n / 10) (by omega) c hc
      · simp at hc
        subst hc
        exact digitChar_isDigit (Nat.mod_lt n (by omega))

theorem decReprAux_ne_nil : ∀ fuel n, n < fuel → decReprAux fuel n ≠ [] := by
  intro fuel n h
  cases fuel with
  | zero => omega
  | succ f =>
    by_cases h10 : n < 10 <;> simp [decReprAux, h10]

theorem decRepr_digits (n : Nat) : ∀ c ∈ decRepr n, c.isDigit = true :=
  decReprAux_digits (n + 1) n (Nat.lt_succ_self n)

theorem decRepr_ne_nil (n : Nat) : decRepr n ≠ [] :=
  decReprAux_ne_nil (n + 1) n (Nat.lt_succ_self n)

theorem decRepr_not_dash {n : Nat} {c : Char} (hc : c ∈ decRepr n) : c ≠ '-' := by
  intro hEq
  have := decRepr_digits n c hc
  rw [hEq] at this
  simp [Char.isDigit] at this

theorem decReprAux_foldl :
    ∀ fuel n a, n < fuel →
      (decReprAux fuel n).foldl (fun acc c => acc * 10 + (c.toNat - 48)) a
        = a * 10 ^ (decReprAux fuel n).length + n := by
  intro fuel
  induction fuel with
  | zero => intro n a h; omega
  | succ f ih =>
    intro n a h
    by_cases h10 : n < 10
    · simp only [decReprAux, if_pos h10, List.foldl_cons, List.foldl_nil,
        List.length_cons, List.length_nil]
      rw [digitChar_toNat h10]
      ring
    · have hdiv : n / 10 < n := Nat.div_lt_self (by omega) (by omega)
      simp only [decReprAux, if_neg h10, List.foldl_append, List.foldl_cons,
        List.foldl_nil, List.length_append, List.length_cons, List.length_nil]
      rw [ih (n / 10) a (by omega), digitChar_toNat (Nat.mod_lt n (by omega))]
      have hmod := Nat.div_add_mod n 10
      rw [pow_succ]
      ring_nf
      omega

theorem parseIntNat_decRepr (n : Nat) : parseIntNat (decRepr n) = some n := by
  unfold parseIntNat
  rw [List.takeWhile_eq_self_iff.mpr (decRepr_digits n)]
  rw [if_neg (decRepr_ne_nil n)]
  have := decReprAux_foldl (n + 1) n 0 (Nat.lt_succ_self n)
  unfold decRepr
  simp only [this, Nat.zero_mul, Nat.zero_add]

theorem splitCh_ne_nil (c : Char) (l : Chars) : splitCh c l ≠ [] := by
  cases l with
  | nil => simp [splitCh]
  | cons x xs =>
    simp only [splitCh]
    split
    · simp
    · split <;> simp_all

theorem splitCh_not_mem {c : Char} {a : Chars} (h : c ∉ a) : splitCh c a = [a] := by
  induction a with
  | nil => rfl
  | cons x xs ih =>
    simp only [List.mem_cons, not_or] at h
    simp only [splitCh, if_neg (Ne.symm h.1)]
    rw [ih h.2]

theorem splitCh_append (c : Char) (a b : Chars) :
    splitCh c (a ++ c :: b) = splitCh c a ++ splitCh c b := by
  induction a with
  | nil => simp [splitCh]
  | cons x xs ih =>
    by_cases hx : x = c
    · subst hx
      simp [splitCh, ih]
    · obtain ⟨y, ys, hy⟩ := List.exists_cons_of_ne_nil (splitCh_ne_nil c xs)
      simp only [List.cons_append, splitCh, if_neg hx]
      rw [show xs.append (c :: b) = xs ++ c :: b from rfl, ih, hy]
      rfl

theorem removeFirst_dropPat {pat : Chars} (r : Chars) (hp : pat ≠ []) :
    removeFirst pat (pat ++ r) = r := by
  obtain ⟨p, ps, hps⟩ := List.exists_cons_of_ne_nil hp
  subst hps
  have hpre : (p :: ps).isPrefixOf ((p :: ps) ++ r) = true := by
    rw [List.isPrefixOf_iff_prefix]
    exact List.prefix_append _ _
  show removeFirst (p :: ps) (p :: (ps ++ r)) = r
  rw [removeFirst, ← List.cons_append, if_pos (by exact hpre)]
  exact List.drop_left _ _

/-! ## Helper lemmas: path resolution -/

/-- A well-formed path segment: nonempty, separator-free, and not one of
the special `.` / `..` segments. (Backslash-freedom is required
separately where the `sanitizePath` strip regex is involved.) -/
def NormalSeg (s : Chars) : Prop :=
  s ≠ [] ∧ '/' ∉ s ∧ s ≠ ['.'] ∧ s ≠ ['.', '.']

instance : DecidablePred NormalSeg := fun s => by
  unfold NormalSeg; infer_instance

theorem joinSegs_cons_cons (s y : Chars) (rest : List Chars) :
    joinSegs (s :: y :: rest) = s ++ '/' :: joinSegs (y :: rest) := rfl

theorem joinSegs_append {l₁ l₂ : List Chars} (h₁ : l₁ ≠ []) (h₂ : l₂ ≠ []) :
    joinSegs (l₁ ++ l₂) = joinSegs l₁ ++ '/' :: joinSegs l₂ := by
  induction l₁ with
  | nil => exact absurd rfl h₁
  | cons s rest ih =>
    cases rest with
    | nil =>
      obtain ⟨y, ys, hy⟩ := List.exists_cons_of_ne_nil h₂
      subst hy
      simp [joinSegs_cons_cons, joinSegs]
    | cons s₂ r₂ =>
      rw [List.cons_append, List.cons_append, joinSegs_cons_cons,
        ← List.cons_append, ih (by simp), joinSegs_cons_cons]
      simp

theorem joinSegs_ne_nil {segs : List Chars} (hne : segs ≠ [])
    (h : ∀ s ∈ segs, s ≠ []) : joinSegs segs ≠ [] := by
  obtain ⟨s, rest, hs⟩ := List.exists_cons_of_ne_nil hne
  subst hs
  cases rest with
  | nil => exact h s (by simp)
  | cons y ys =>
    rw [joinSegs_cons_cons]
    intro hc
    exact h s (by simp) (List.append_eq_nil.mp hc).1

theorem joinSegs_head {segs : List Chars} (hne : segs ≠ [])
    (h : ∀ s ∈ segs, s ≠ []) :
    (joinSegs segs).head? = (segs.headD []).head? := by
  obtain ⟨s, rest, hs⟩ := List.exists_cons_of_ne_nil hne
  subst hs
  cases rest with
  | nil => rfl
  | cons y ys =>
    rw [joinSegs_cons_cons]
    obtain ⟨c, cs, hc⟩ := List.exists_cons_of_ne_nil (h s (by simp))
    subst hc
    rfl

theorem splitCh_joinSegs {segs : List Chars} (hne : segs ≠ [])
    (h : ∀ s ∈ segs, s ≠ [] ∧ '/' ∉ s) :
    splitCh '/' (joinSegs segs) = segs := by
  induction segs with
  | nil => exact absurd rfl hne
  | cons s rest ih =>
    cases rest with
    | nil => exact splitCh_not_mem (h s (by simp)).2
    | cons y ys =>
      rw [joinSegs_cons_cons, splitCh_append,
        splitCh_not_mem (h s (by simp)).2, ih (by simp)
          (fun t ht => h t (List.mem_cons_of_mem s ht))]
      rfl

theorem normSegsAux_all_normal {segs : List Chars}
    (h : ∀ s ∈ segs, NormalSeg s) :
    ∀ allow acc, normSegsAux allow acc segs = acc ++ segs := by
  induction segs with
  | nil => intro allow acc; simp [normSegsAux]
  | cons s rest ih =>
    intro allow acc
    obtain ⟨hs1, _, hs3, hs4⟩ := h s (by simp)
    rw [normSegsAux, if_neg (by simp [hs1, hs3]), if_neg hs4,
      ih (fun t ht => h t (List.mem_cons_of_mem s ht))]
    simp

/-- `path.resolve` leaves an absolute path built from normal segments
unchanged. -/
theorem pathResolve1_fixed {A : List Chars} (hne : A ≠ [])
    (h : ∀ s ∈ A, NormalSeg s) :
    pathResolve1 ('/' :: joinSegs A) = '/' :: joinSegs A := by
  unfold pathResolve1
  have hsplit : splitCh '/' ('/' :: joinSegs A) = [] :: splitCh '/' (joinSegs A) := by
    simp [splitCh]
  rw [hsplit, splitCh_joinSegs hne (fun s hs => ⟨(h s hs).1, (h s hs).2.1⟩)]
  rw [normSegsAux, if_pos (Or.inl rfl), normSegsAux_all_normal h]
  simp

/-- Resolving a relative path of normal segments against such a root
appends it after a separator. -/
theorem pathResolve2_append {R W : List Chars}
    (hRne : R ≠ []) (hR : ∀ s ∈ R, NormalSeg s)
    (hWne : W ≠ []) (hW : ∀ s ∈ W, NormalSeg s) :
    pathResolve2 ('/' :: joinSegs R) (joinSegs W)
      = '/' :: joinSegs R ++ '/' :: joinSegs W := by
  have hWne' : joinSegs W ≠ [] := joinSegs_ne_nil hWne (fun s hs => (hW s hs).1)
  have hhead : (joinSegs W).head? ≠ some '/' := by
    rw [joinSegs_head hWne (fun s hs => (hW s hs).1)]
    obtain ⟨s, rest, hs⟩ := List.exists_cons_of_ne_nil hWne
    subst hs
    obtain ⟨c, cs, hc⟩ := List.exists_cons_of_ne_nil (hW s (by simp)).1
    simp only [List.headD_cons, hc, List.head?_cons, Option.some.injEq]
    intro hcontra
    have hc2 : c = '/' := Option.some.inj hcontra
    exact (hW s (by simp)).2.1 (by rw [hc, hc2]; exact List.mem_cons_self _ _)
  unfold pathResolve2
  rw [if_neg hhead, if_neg hWne']
  have hjoin : ('/' :: joinSegs R) ++ '/' :: joinSegs W
      = '/' :: joinSegs (R ++ W) := by
    rw [joinSegs_append hRne hWne]
    simp
  rw [hjoin, pathResolve1_fixed (by simp [hRne])
    (by intro s hs; rcases List.mem_append.mp hs with h | h
        exacts [hR s h, hW s h]), ← hjoin]

/-- Soundness of `sanitizePath`'s containment check: a returned path is
the base directory or extends it past a separator. -/
theorem sanitizePath_some {root u p : Chars} (h : sanitizePath root u = some p) :
    p = pathResolve1 root ∨ (pathResolve1 root ++ ['/']) <+: p := by
  unfold sanitizePath at h
  by_cases hu : u = []
  · rw [if_pos hu] at h
    exact Or.inl (Option.some.inj h).symm
  · rw [if_neg hu] at h
    by_cases hc : (pathResolve2 (pathResolve1 root)
        (stripLeadingDotDots (pathNormalize u)) == pathResolve1 root
      || (pathResolve1 root ++ ['/']).isPrefixOf
          (pathResolve2 (pathResolve1 root) (stripLeadingDotDots (pathNormalize u)))) = true
    · rw [if_pos hc] at h
      have hp := (Option.some.inj h)
      rcases Bool.or_eq_true_iff.mp hc with hh | hh
      · exact Or.inl (hp ▸ (beq_iff_eq.mp hh))
      · exact Or.inr (hp ▸ (List.isPrefixOf_iff_prefix.mp hh))
    · rw [if_neg hc] at h
      exact absurd h (by simp)

/-! ## Helper lemmas: leading `..` traversal prefixes -/

/-- The string `"../"` repeated `k` times. -/
def ddPrefix : Nat → Chars
  | 0 => []
  | k + 1 => '.' :: '.' :: '/' :: ddPrefix k

theorem splitCh_ddPrefix (k : Nat) (X : Chars) :
    splitCh '/' (ddPrefix k ++ X)
      = List.replicate k ['.', '.'] ++ splitCh '/' X := by
  induction k with
  | zero => rfl
  | succ k ih =>
    show splitCh '/' (['.', '.'] ++ '/' :: (ddPrefix k ++ X)) = _
    rw [splitCh_append, splitCh_not_mem (by decide), ih, List.replicate_succ]
    rfl

theorem normSegsAux_dds {segs : List Chars} (h : ∀ s ∈ segs, NormalSeg s) :
    ∀ k j, normSegsAux true (List.replicate j ['.', '.'])
        (List.replicate k ['.', '.'] ++ segs)
      = List.replicate (j + k) ['.', '.'] ++ segs := by
  intro k
  induction k with
  | zero =>
    intro j
    rw [List.replicate_zero, List.nil_append, Nat.add_zero]
    exact normSegsAux_all_normal h true _
  | succ k ih =>
    intro j
    rw [List.replicate_succ, List.cons_append, normSegsAux,
      if_neg (by decide), if_pos rfl]
    have hpush : ¬(List.replicate j ['.', '.'] ≠ []
        ∧ (List.replicate j ['.', '.']).getLast? ≠ some ['.', '.']) := by
      cases j with
      | zero => simp
      | succ j =>
        rintro ⟨-, hlast⟩
        exact hlast (by
          rw [List.replicate_succ', List.getLast?_append_of_ne_nil _ (by simp)]
          rfl)
    rw [if_neg hpush, if_pos rfl, ← List.replicate_succ', ih (j + 1)]
    have harith : j + 1 + k = j + (k + 1) := by omega
    rw [harith]

theorem joinSegs_replicate_dd {segs : List Chars} (hne : segs ≠ []) :
    ∀ k, joinSegs (List.replicate k ['.', '.'] ++ segs)
      = ddPrefix k ++ joinSegs segs := by
  intro k
  induction k with
  | zero => rfl
  | succ k ih =>
    rw [List.replicate_succ, List.cons_append]
    have hrest : List.replicate k ['.', '.'] ++ segs ≠ [] := by
      simp [hne]
    obtain ⟨y, ys, hy⟩ := List.exists_cons_of_ne_nil hrest
    rw [hy, joinSegs_cons_cons, ← hy, ih]
    rfl

theorem stripLeadingDotDots_ddPrefix (X : Chars) :
    ∀ k, stripLeadingDotDots (ddPrefix k ++ X) = stripLeadingDotDots X := by
  intro k
  induction k with
  | zero => rfl
  | succ k ih =>
    show stripLeadingDotDots ('.' :: '.' :: '/' :: (ddPrefix k ++ X)) = _
    rw [stripLeadingDotDots, ih]

/-- `path.normalize` leaves `"../" * (k+1) ++ "etc/passwd"` unchanged: the
leading `..` segments survive (`allowAboveRoot` holds for a relative
input) and the tail segments are already normal. -/
theorem pathNormalize_dd_etc (k : Nat) :
    pathNormalize (ddPrefix (k + 1) ++ S "etc/passwd")
      = ddPrefix (k + 1) ++ S "etc/passwd" := by
  have hne : ddPrefix (k + 1) ++ S "etc/passwd" ≠ [] := by
    show '.' :: _ ≠ []
    simp
  have hsegs : ∀ s ∈ [S "etc", S "passwd"], NormalSeg s := by decide
  have hsplit : splitCh '/' (ddPrefix (k + 1) ++ S "etc/passwd")
      = List.replicate (k + 1) ['.', '.'] ++ [S "etc", S "passwd"] := by
    rw [splitCh_ddPrefix]
    rfl
  have hlast : (ddPrefix (k + 1) ++ S "etc/passwd").getLast? = some 'd' := by
    rw [List.getLast?_append_of_ne_nil _ (by decide)]
    rfl
  have hhead : (ddPrefix (k + 1) ++ S "etc/passwd").head? = some '.' := rfl
  have hcore : joinSegs (normSegsAux true []
      (splitCh '/' (ddPrefix (k + 1) ++ S "etc/passwd")))
      = ddPrefix (k + 1) ++ S "etc/passwd" := by
    rw [hsplit]
    have hdds := normSegsAux_dds hsegs (k + 1) 0
    rw [List.replicate_zero, Nat.zero_add] at hdds
    rw [hdds, joinSegs_replicate_dd (by simp)]
    rfl
  unfold pathNormalize
  rw [if_neg hne]
  simp only [hhead, hlast, Option.some.injEq,
    show ('.' = '/') = False from by decide,
    show ('d' = '/') = False from by decide,
    decide_False, Bool.not_false, if_false, ite_false]
  rw [hcore]
  simp [hne]

/-- Any path the `/api/video` handler streams bytes from was produced by
`sanitizePath` on the request's query path. -/
theorem videoHandler_src_sanitized {exts : List Chars} {root : Chars} {fs : List (Chars × FSNode)}
    {qpath range : Option Chars} {p : Chars}
    (h : (∃ r, videoHandler exts root fs qpath range = .stream206 p r)
      ∨ (∃ cl bl, videoHandler exts root fs qpath range = .stream200 p cl bl)) :
    ∃ qp, qpath = some qp ∧ sanitizePath root qp = some p := by
  cases qpath with
  | none =>
    rcases h with ⟨r, h⟩ | ⟨cl, bl, h⟩ <;> exact absurd h (by simp [videoHandler])
  | some qp =>
    refine ⟨qp, rfl, ?_⟩
    cases hsan : sanitizePath root qp with
    | none =>
      rcases h with ⟨r, h⟩ | ⟨cl, bl, h⟩ <;> simp [videoHandler, hsan] at h
    | some full =>
      suffices hpf : p = full by rw [hpf]
      rcases h with ⟨r, h⟩ | ⟨cl, bl, h⟩ <;>
      · simp only [videoHandler, hsan] at h
        cases hlk : lookupNode (.dir fs) (relSegsOf (pathResolve1 root) full) with
        | none => simp [hlk] at h
        | some n =>
          cases n with
          | dir es => simp [hlk] at h
          | file size =>
            simp only [hlk] at h
            by_cases hv : (!isVideoFile exts full) = true
            · simp [hv] at h
            · rw [if_neg hv] at h
              cases hsv : streamVideo size range with
              | part206 r2 =>
                first
                | (simp only [hsv, VideoResp.stream206.injEq] at h
                   exact h.1.symm)
                | simp [hsv] at h
              | full200 cl2 bl2 =>
                first
                | (simp only [hsv, VideoResp.stream200.injEq] at h
                   exact h.1.symm)
                | simp [hsv] at h
              | err500 => simp [hsv] at h

/-! ## Helper lemmas: recursive search invariants -/

/-- Every readdir the item loop performs happens strictly below the
current depth, within the depth cap, and with strictly fewer than
`maxResults` accumulated results at entry. -/
theorem searchItems_log (cfg : SearchCfg) :
    ∀ fuel l segs depth acc, ∀ d ∈ (searchItems cfg fuel l segs depth acc).2,
      depth < d.depth ∧ d.depth ≤ cfg.maxDepth ∧ d.accLen < cfg.maxResults := by
  intro fuel
  induction fuel with
  | zero => intro l segs depth acc d hd; simp [searchItems] at hd
  | succ f ih =>
    intro l segs depth acc d hd
    cases l with
    | nil => simp [searchItems] at hd
    | cons item rest =>
      obtain ⟨name, node⟩ := item
      by_cases hh : isHidden name = true
      · simp only [searchItems, if_pos hh] at hd
        exact ih rest segs depth acc d hd
      · cases node with
        | dir es =>
          by_cases hg : depth + 1 > cfg.maxDepth ∨ acc.length ≥ cfg.maxResults
          · simp only [searchItems, if_neg hh, if_pos hg, List.nil_append] at hd
            exact ih rest segs depth acc d hd
          · simp only [searchItems, if_neg hh, if_neg hg, List.cons_append,
              List.mem_cons, List.mem_append] at hd
            push_neg at hg
            rcases hd with hd | hd | hd
            · subst hd
              dsimp
              omega
            · have := ih es (segs ++ [name]) (depth + 1) acc d hd
              exact ⟨by omega, this.2.1, this.2.2⟩
            · exact ih rest segs depth _ d hd
        | file size =>
          by_cases hq : containsSub cfg.lowerQuery (lowerChars name) = true
          · simp only [searchItems, if_neg hh, if_pos hq] at hd
            exact ih rest segs depth _ d hd
          · simp only [searchItems, if_neg hh, if_neg hq] at hd
            exact ih rest segs depth acc d hd

/-- Every directory the item loop reads lies strictly inside the current
one: its root-relative segments extend the current ones by a nonempty
run of non-hidden names. -/
theorem searchItems_log_segs (cfg : SearchCfg) :
    ∀ fuel l segs depth acc, ∀ d ∈ (searchItems cfg fuel l segs depth acc).2,
      ∃ t, d.relSegs = segs ++ t ∧ t ≠ [] ∧ ∀ s ∈ t, isHidden s = false := by
  intro fuel
  induction fuel with
  | zero => intro l segs depth acc d hd; simp [searchItems] at hd
  | succ f ih =>
    intro l segs depth acc d hd
    cases l with
    | nil => simp [searchItems] at hd
    | cons item rest =>
      obtain ⟨name, node⟩ := item
      by_cases hh : isHidden name = true
      · simp only [searchItems, if_pos hh] at hd
        exact ih rest segs depth acc d hd
      · cases node with
        | dir es =>
          by_cases hg : depth + 1 > cfg.maxDepth ∨ acc.length ≥ cfg.maxResults
          · simp only [searchItems, if_neg hh, if_pos hg, List.nil_append] at hd
            exact ih rest segs depth acc d hd
          · simp only [searchItems, if_neg hh, if_neg hg, List.cons_append,
              List.mem_cons, List.mem_append] at hd
            rcases hd with hd | hd | hd
            · subst hd
              exact ⟨[name], rfl, by simp,
                by simpa using Bool.not_eq_true _ ▸ (by simpa using hh)⟩
            · obtain ⟨t, ht, -, hts⟩ := ih es (segs ++ [name]) (depth + 1) acc d hd
              refine ⟨name :: t, ?_, by simp, ?_⟩
              · rw [ht, List.append_assoc]
                rfl
              · intro s hs
                rcases List.mem_cons.mp hs with hs | hs
                · subst hs
                  simpa using hh
                · exact hts s hs
            · exact ih rest segs depth _ d hd
        | file size =>
          by_cases hq : containsSub cfg.lowerQuery (lowerChars name) = true
          · simp only [searchItems, if_neg hh, if_pos hq] at hd
            exact ih rest segs depth _ d hd
          · simp only [searchItems, if_neg hh, if_neg hq] at hd
            exact ih rest segs depth acc d hd

/-- Every result the item loop adds to the accumulator records a
non-hidden file reached through non-hidden directories below the current
one, and carries the `folder` field computed from its own `path`. -/
theorem searchItems_results (cfg : SearchCfg) :
    ∀ fuel l segs depth acc, ∀ r ∈ (searchItems cfg fuel l segs depth acc).1,
      r ∈ acc ∨ ∃ t name,
        (∀ s ∈ t, isHidden s = false) ∧ isHidden name = false
        ∧ r.name = name
        ∧ r.relPath = joinSegs (segs ++ (t ++ [name]))
        ∧ r.folder = mkFolder r.relPath := by
  intro fuel
  induction fuel with
  | zero => intro l segs depth acc r hr; simp only [searchItems] at hr; exact Or.inl hr
  | succ f ih =>
    intro l segs depth acc r hr
    cases l with
    | nil => simp only [searchItems] at hr; exact Or.inl hr
    | cons item rest =>
      obtain ⟨name, node⟩ := item
      by_cases hh : isHidden name = true
      · simp only [searchItems, if_pos hh] at hr
        exact ih rest segs depth acc r hr
      · cases node with
        | dir es =>
          by_cases hg : depth + 1 > cfg.maxDepth ∨ acc.length ≥ cfg.maxResults
          · simp only [searchItems, if_neg hh, if_pos hg] at hr
            exact ih rest segs depth acc r hr
          · simp only [searchItems, if_neg hh, if_neg hg] at hr
            rcases ih rest segs depth _ r hr with hsub | hnew
            · rcases ih es (segs ++ [name]) (depth + 1) acc r hsub with hacc | hnew
              · exact Or.inl hacc
              · obtain ⟨t, n, hts, hn, hrn, hrp, hrf⟩ := hnew
                refine Or.inr ⟨name :: t, n, ?_, hn, hrn, ?_, hrf⟩
                · intro s hs
                  rcases List.mem_cons.mp hs with hs | hs
                  · subst hs; simpa using hh
                  · exact hts s hs
                · rw [hrp, List.append_assoc]
                  rfl
            · exact Or.inr hnew
        | file size =>
          by_cases hq : containsSub cfg.lowerQuery (lowerChars name) = true
          · simp only [searchItems, if_neg hh, if_pos hq] at hr
            rcases ih rest segs depth _ r hr with hacc | hnew
            · rcases List.mem_append.mp hacc with hacc | hacc
              · exact Or.inl hacc
              · rcases List.mem_singleton.mp hacc with rfl
                refine Or.inr ⟨[], name, by simp, by simpa using hh, rfl, by simp, rfl⟩
            · exact Or.inr hnew
          · simp only [searchItems, if_neg hh, if_neg hq] at hr
            exact ih rest segs depth acc r hr

/-- The single-level listing never records a hidden entry. -/
theorem collectListing_not_hidden (exts imgExts : List Chars) (relBase : List Chars) :
    ∀ l, (∀ e ∈ (collectListing exts imgExts relBase l).1, isHidden e.name = false)
       ∧ (∀ e ∈ (collectListing exts imgExts relBase l).2, isHidden e.name = false) := by
  intro l
  induction l with
  | nil => exact ⟨by simp [collectListing], by simp [collectListing]⟩
  | cons item rest ih =>
    obtain ⟨name, node⟩ := item
    by_cases hh : isHidden name = true
    · constructor <;> intro e he <;>
        simp only [collectListing, if_pos hh] at he
      · exact ih.1 e he
      · exact ih.2 e he
    · cases node with
      | dir es =>
        constructor <;> intro e he <;>
          simp only [collectListing, if_neg hh, List.mem_cons] at he
        · rcases he with he | he
          · subst he; simpa using hh
          · exact ih.1 e he
        · exact ih.2 e he
      | file size =>
        constructor <;> intro e he <;>
          simp only [collectListing, if_neg hh, List.mem_cons] at he
        · exact ih.1 e he
        · rcases he with he | he
          · subst he; simpa using hh
          · exact ih.2 e he

/-- `path.dirname` never returns the empty string. -/
theorem dirnameStr_ne_nil (p : Chars) : dirnameStr p ≠ [] := by
  unfold dirnameStr
  cases p with
  | nil => simp
  | cons c0 rest =>
    dsimp only
    split
    · split <;> simp
    · split <;> simp

/-- On a separator-free string, `path.dirname` returns `"."`. -/
theorem dirnameStr_no_slash {p : Chars} (h : '/' ∉ p) : dirnameStr p = ['.'] := by
  cases p with
  | nil => rfl
  | cons c0 rest =>
    simp only [List.mem_cons, not_or] at h
    simp only [dirnameStr]
    have hsub : ∀ x ∈ (rest.reverse.dropWhile (fun c => c = '/')), (x ≠ '/' : Prop) := by
      intro x hx
      have hx2 : x ∈ rest.reverse := (List.dropWhile_sublist _).subset hx
      intro hc
      exact h.2 (by rw [← hc]; exact List.mem_reverse.mp hx2)
    have hdrop : (rest.reverse.dropWhile (fun c => c = '/')).dropWhile
        (fun c => c ≠ '/') = [] := by
      rw [List.dropWhile_eq_nil_iff]
      intro x hx
      simpa using hsub x hx
    rw [hdrop]
    show (if c0 = '/' then ['/'] else ['.']) = ['.']
    exact if_neg (fun hc => h.1 hc.symm)

/-! ## Claims -/

/-- **C1** (code_bug evidence). For a 500000-byte video, the range header
`bytes=500000-500010` — start at end of file — is answered by the code
with a 206 whose `Content-Range` advertises the out-of-bounds span,
`Content-Length: 11`, a read stream constructed over bytes
500000..500010 of a 500000-byte file (`readStart` equal to the file
size, i.e. past the last valid offset 499999), and an empty body: the
empty 206 and out-of-bounds read that the claim requires to be a 416
Range Not Satisfiable-class failure. -/
theorem video_range_beyond_eof_gives_empty_206 :
    streamVideo 500000 (some (S "bytes=500000-500010"))
      = .part206 { contentRange := S "bytes 500000-500010/500000",
                   contentLength := 11, readStart := 500000,
                   readEnd := 500010, bodyLen := 0 }
    ∧ 500000 ≤ 500000 ∧ (∀ s : StreamOut, s = .err500 → s ≠ .part206
        { contentRange := S "bytes 500000-500010/500000", contentLength := 11,
          readStart := 500000, readEnd := 500010, bodyLen := 0 }) := by
  refine ⟨by decide, by decide, ?_⟩
  intro s hs
  subst hs
  decide

/-- **C4** (counterexample). The claim requires a 400/403 and never a
5xx for an escaping path parameter. Against root `/lib` with only
`movies/a.mp4` on disk, `GET /api/video?path=../../etc/passwd` is
answered with HTTP **500**: `sanitizePath` silently neutralizes the
leading `..` (no traversal error), the handler then stats the
nonexistent `/lib/etc/passwd`, and the catch-all turns the rejection
into a 500 — which is neither 400 nor 403 and is a 5xx. -/
theorem videoHandler_traversal_responds_500 :
    videoHandler [S ".mp4"] (S "/lib")
        [(S "movies", .dir [(S "a.mp4", .file 500000)])]
        (some (S "../../etc/passwd")) none = .errJson 500
    ∧ (500 : Nat) ≠ 400 ∧ (500 : Nat) ≠ 403 := by
  refine ⟨by decide, by decide, by decide⟩

/-- **C4** (amended). An escaping path parameter never obtains file
bytes, but the failure status is 500, not 400/403: whenever
`sanitizePath` rejects the query path the handler answers
`.errJson 500` (error JSON, no file bytes), and every response that does
stream bytes streams them from a path that is the root or a true
descendant of it — never from outside the root. -/
theorem videoHandler_escape_no_bytes (exts : List Chars) (root : Chars)
    (R : List Chars) (fs : List (Chars × FSNode)) (qpath range : Option Chars)
    (hroot : root = '/' :: joinSegs R) (hRne : R ≠ [])
    (hR : ∀ s ∈ R, NormalSeg s) :
    (∀ qp, qpath = some qp → sanitizePath root qp = none →
      videoHandler exts root fs qpath range = .errJson 500)
    ∧ (∀ p r, videoHandler exts root fs qpath range = .stream206 p r →
        p = root ∨ (root ++ ['/']) <+: p)
    ∧ (∀ p cl bl, videoHandler exts root fs qpath range = .stream200 p cl bl →
        p = root ∨ (root ++ ['/']) <+: p) := by
  have hfix : pathResolve1 root = root := by
    rw [hroot]; exact pathResolve1_fixed hRne hR
  refine ⟨?_, ?_, ?_⟩
  · intro qp hq hsan
    subst hq
    simp [videoHandler, hsan]
  · intro p r h
    obtain ⟨qp, -, hsan⟩ := videoHandler_src_sanitized (Or.inl ⟨r, h⟩)
    have hin := sanitizePath_some hsan
    rwa [hfix] at hin
  · intro p cl bl h
    obtain ⟨qp, -, hsan⟩ := videoHandler_src_sanitized (Or.inr ⟨cl, bl, h⟩)
    have hin := sanitizePath_some hsan
    rwa [hfix] at hin

/-- Witness for the amended C4: the absolute escape `/etc/passwd` against
root `/lib` makes `sanitizePath` throw and the handler answer 500. -/
theorem videoHandler_escape_no_bytes_witness :
    videoHandler [S ".mp4"] (S "/lib")
        [(S "movies", .dir [(S "a.mp4", .file 500000)])]
        (some (S "/etc/passwd")) none = .errJson 500 :=
  (videoHandler_escape_no_bytes [S ".mp4"] (S "/lib") [S "lib"]
      [(S "movies", .dir [(S "a.mp4", .file 500000)])]
      (some (S "/etc/passwd")) none (by decide) (by decide) (by decide)).1
    (S "/etc/passwd") rfl (by decide)

/-- **C5** (confirmed). For a video file of size `N` and an in-bounds
range header: `bytes=<s>-<e>` with `s ≤ e < N` yields a 206 whose
`Content-Range` is `bytes <s>-<e>/<N>`, whose `Content-Length` is
`e - s + 1` and whose body is exactly that many bytes from offsets
`s..e` (the `Accept-Ranges: bytes` and `Content-Type` headers are set
unconditionally on this `writeHead(206, ...)` path); and `bytes=<s>-`
with `s < N` defaults the end to `N - 1`, so `bytes=0-` yields
`Content-Range: bytes 0-(N-1)/N` and a body of exactly `N` bytes. -/
theorem video_range_in_bounds_206 (N s e : Nat) (hse : s ≤ e) (heN : e < N) :
    streamVideo N (some (S "bytes=" ++ decRepr s ++ '-' :: decRepr e))
      = .part206 { contentRange := S "bytes " ++ decRepr s ++ '-' :: decRepr e ++ '/' :: decRepr N,
                   contentLength := e - s + 1, readStart := s, readEnd := e,
                   bodyLen := e - s + 1 }
    ∧ streamVideo N (some (S "bytes=" ++ decRepr s ++ ['-']))
      = .part206 { contentRange := S "bytes " ++ decRepr s ++ '-' :: decRepr (N - 1) ++ '/' :: decRepr N,
                   contentLength := (N - 1) - s + 1, readStart := s, readEnd := N - 1,
                   bodyLen := N - s } := by
  have hsN : s < N := lt_of_le_of_lt hse heN
  have hbytes : (S "bytes=") ≠ ([] : Chars) := by decide
  constructor
  · show streamVideo N (some (S "bytes=" ++ (decRepr s ++ '-' :: decRepr e))) = _
    simp only [streamVideo]
    rw [removeFirst_dropPat _ hbytes,
      splitCh_append '-' (decRepr s) (decRepr e),
      splitCh_not_mem (fun h => decRepr_not_dash h rfl),
      splitCh_not_mem (fun h => decRepr_not_dash h rfl)]
    have hbody : readStreamLen N s e = e - s + 1 := by
      unfold readStreamLen
      rw [if_pos hsN, min_eq_left (by omega)]
    simp [parseIntNat_decRepr, decRepr_ne_nil e, hse, hbody]
  · show streamVideo N (some (S "bytes=" ++ (decRepr s ++ '-' :: []))) = _
    simp only [streamVideo]
    rw [removeFirst_dropPat _ hbytes,
      splitCh_append '-' (decRepr s) [],
      splitCh_not_mem (fun h => decRepr_not_dash h rfl)]
    have hbody : readStreamLen N s (N - 1) = N - s := by
      unfold readStreamLen
      rw [if_pos hsN, min_self]
      omega
    simp [splitCh, parseIntNat_decRepr, hbody, (by omega : s ≤ N - 1)]

/-- Witness for C5 at the spec's concrete scenario: `bytes=100-199` on a
500000-byte file gives a 206 with `Content-Length: 100` and
`Content-Range: bytes 100-199/500000`. -/
theorem video_range_in_bounds_206_witness :
    streamVideo 500000 (some (S "bytes=" ++ decRepr 100 ++ '-' :: decRepr 199))
      = .part206 { contentRange := S "bytes " ++ decRepr 100 ++ '-' :: decRepr 199 ++ '/' :: decRepr 500000,
                   contentLength := 100, readStart := 100, readEnd := 199,
                   bodyLen := 100 } :=
  (video_range_in_bounds_206 500000 100 199 (by decide) (by decide)).1

/-- **C2** (confirmed). Whenever `sanitizePath` succeeds on a root of
well-formed segments, the returned path is the root itself or a true
descendant: byte-for-byte it equals the root or extends `root ++ '/'`.
The empty relative path resolves to the root itself. Consequently no
successful resolution lands in a sibling directory that merely shares a
string prefix with the root: no returned path has a prefix of the form
`root ++ c :: _` with `c ≠ '/'` (for root `/lib`, no result is under
`/libevil`). -/
theorem sanitizePath_stays_in_root (root u p : Chars) (R : List Chars)
    (hroot : root = '/' :: joinSegs R) (hRne : R ≠ [])
    (hR : ∀ s ∈ R, NormalSeg s)
    (h : sanitizePath root u = some p) :
    (p = root ∨ (root ++ ['/']) <+: p)
    ∧ (u = [] → p = root)
    ∧ (∀ c rest, c ≠ '/' → ¬ ((root ++ c :: rest) <+: p)) := by
  have hfix : pathResolve1 root = root := by
    rw [hroot]; exact pathResolve1_fixed hRne hR
  have hmain : p = root ∨ (root ++ ['/']) <+: p := by
    have := sanitizePath_some h
    rwa [hfix] at this
  refine ⟨hmain, ?_, ?_⟩
  · intro hu
    rw [hu] at h
    unfold sanitizePath at h
    rw [if_pos rfl] at h
    rw [← Option.some.inj h, hfix]
  · intro c rest hc hpre
    rcases hmain with hp | hp
    · subst hp
      have := List.IsPrefix.length_le hpre
      simp at this
    · obtain ⟨t, ht⟩ := hp
      rw [← ht] at hpre
      rw [List.append_assoc] at hpre ht
      have := (List.prefix_append_right_inj root).mp hpre
      rcases List.cons_prefix_cons.mp this with ⟨hch, _⟩
      exact hc hch

/-- Witness for C2: for root `/lib` and relative path `movies/a.mp4`,
resolution succeeds at `/lib/movies/a.mp4`, which is a true descendant
of `/lib` and has no `/libevil`-style sibling prefix. -/
theorem sanitizePath_stays_in_root_witness :
    (S "/lib/movies/a.mp4" = S "/lib" ∨ (S "/lib" ++ ['/']) <+: S "/lib/movies/a.mp4")
    ∧ (S "movies/a.mp4" = [] → S "/lib/movies/a.mp4" = S "/lib")
    ∧ (∀ c rest, c ≠ '/' → ¬ ((S "/lib" ++ c :: rest) <+: S "/lib/movies/a.mp4")) :=
  sanitizePath_stays_in_root (S "/lib") (S "movies/a.mp4")
    (S "/lib/movies/a.mp4") [S "lib"] (by decide) (by decide)
    (by decide) (by decide)

/-- **C3** (counterexample). The claim says a relative path whose `..`
segments escape the root fails with a TraversalError; in fact
`sanitizePath("/lib", "../../etc/passwd")` does not throw at all — the
leading `..` segments are stripped by the regex and resolution succeeds
at `/lib/etc/passwd`, inside the root. -/
theorem sanitizePath_dotdot_no_error :
    sanitizePath (S "/lib") (S "../../etc/passwd") = some (S "/lib/etc/passwd")
    ∧ sanitizePath (S "/lib") (S "../../etc/passwd") ≠ none := by
  refine ⟨by decide, ?_⟩
  intro h
  rw [show sanitizePath (S "/lib") (S "../../etc/passwd")
      = some (S "/lib/etc/passwd") from by decide] at h
  exact Option.noConfusion h

/-- **C3** (amended). For every escape depth `k + 1` of leading `../`
segments, `sanitizePath` on `"../" * (k+1) ++ "etc/passwd"` does not
report traversal: it silently neutralizes the leading parent segments
and succeeds at `root ++ "/etc/passwd"`, a path inside the root. (The
whole computation is a pure string function by construction — the model
touches no filesystem.) -/
theorem sanitizePath_dotdot_neutralized (root : Chars) (R : List Chars) (k : Nat)
    (hroot : root = '/' :: joinSegs R) (hRne : R ≠ [])
    (hR : ∀ s ∈ R, NormalSeg s) :
    sanitizePath root (ddPrefix (k + 1) ++ S "etc/passwd")
      = some (root ++ '/' :: S "etc/passwd") := by
  have hfix : pathResolve1 root = root := by
    rw [hroot]; exact pathResolve1_fixed hRne hR
  have hu : ddPrefix (k + 1) ++ S "etc/passwd" ≠ [] := by
    show '.' :: _ ≠ []
    simp
  have hres : pathResolve2 root (S "etc/passwd") = root ++ '/' :: S "etc/passwd" := by
    rw [hroot]
    exact pathResolve2_append hRne hR (W := [S "etc", S "passwd"])
      (by simp) (by decide)
  have hpref : (root ++ ['/']).isPrefixOf (root ++ '/' :: S "etc/passwd") = true := by
    rw [List.isPrefixOf_iff_prefix]
    exact ⟨S "etc/passwd", by simp⟩
  unfold sanitizePath
  rw [if_neg hu, hfix, pathNormalize_dd_etc, stripLeadingDotDots_ddPrefix,
    show stripLeadingDotDots (S "etc/passwd") = S "etc/passwd" from by decide]
  show (if (pathResolve2 root (S "etc/passwd") == root
        || List.isPrefixOf (root ++ ['/']) (pathResolve2 root (S "etc/passwd"))) = true
      then some (pathResolve2 root (S "etc/passwd")) else none)
      = some (root ++ '/' :: S "etc/passwd")
  rw [hres, if_pos (by rw [hpref]; exact Bool.or_true _)]

/-- Witness for the amended C3 at root `/lib` and input `../../etc/passwd`. -/
theorem sanitizePath_dotdot_neutralized_witness :
    sanitizePath (S "/lib") (ddPrefix 2 ++ S "etc/passwd")
      = some (S "/lib" ++ '/' :: S "etc/passwd") :=
  sanitizePath_dotdot_neutralized (S "/lib") [S "lib"] 1
    (by decide) (by decide) (by decide)

/-- **C6** (counterexample). With the default `maxResults = 100`, a
single directory holding 101 files whose names match the query yields a
result list of length 101: the cap is only consulted when a directory is
entered, so further entries of the current directory keep accumulating
past `maxResults`, contradicting "never contains more than maxResults
entries". -/
theorem search_result_cap_exceeded :
    (searchVideosRecursive [S ".mp4"] [] 10 200
        ((List.range 101).map (fun i => (S "f" ++ decRepr i ++ S ".mp4", FSNode.file 0)))
        [] (S "mp4")).1.length = 101
    ∧ 100 < 101 := ⟨by decide, by decide⟩

/-- **C6** (amended). The result cap is enforced at directory
granularity: every `readdir` the search performs — the start directory
included — happens while strictly fewer than `maxResults` results have
accumulated, so no directory is entered after the cap is reached; only
entries of directories already being scanned can push the count past
`maxResults`. -/
theorem search_cap_checked_per_directory (exts imgExts : List Chars)
    (maxDepth fuel : Nat) (entries : List (Chars × FSNode)) (startSegs : List Chars)
    (query : Chars) (maxResults : Nat) :
    ∀ d ∈ (searchVideosRecursive exts imgExts maxDepth fuel entries
        startSegs query maxResults).2,
      d.accLen < maxResults := by
  intro d hd
  simp only [searchVideosRecursive, searchDir] at hd
  split at hd
  · simp at hd
  · next hg =>
    simp only [List.mem_cons] at hd
    rcases hd with hd | hd
    · subst hd
      dsimp
      push_neg at hg
      simpa using hg.2
    · exact (searchItems_log _ fuel entries startSegs 0 [] d hd).2.2

/-- Witness for the amended C6: the start directory itself is read with
0 accumulated results, below the cap of 7. -/
theorem search_cap_checked_per_directory_witness :
    (⟨[], 0, 0⟩ : DirRead).accLen < 7 :=
  search_cap_checked_per_directory [S ".mp4"] [] 10 50
    [(S "a.mp4", FSNode.file 1)] [] (S "mp4") 7 ⟨[], 0, 0⟩ (by decide)

/-- **C7** (confirmed). Recursive search is a total function of the
(finite) directory tree, and it never reads a directory at depth greater
than `maxDepth`: every logged `readdir` has `depth ≤ maxDepth`, the
depth cap returning partial results rather than an error. With
`maxDepth = 0` (and a positive result cap) the log is exactly the
starting directory at depth 0 — no subdirectory is ever read. -/
theorem search_depth_capped (exts imgExts : List Chars) (maxDepth fuel : Nat)
    (entries : List (Chars × FSNode)) (startSegs : List Chars) (query : Chars)
    (maxResults : Nat) :
    (∀ d ∈ (searchVideosRecursive exts imgExts maxDepth fuel entries
        startSegs query maxResults).2, d.depth ≤ maxDepth)
    ∧ (maxDepth = 0 → 0 < maxResults →
        (searchVideosRecursive exts imgExts maxDepth fuel entries
            startSegs query maxResults).2
          = [⟨startSegs, 0, 0⟩]) := by
  constructor
  · intro d hd
    simp only [searchVideosRecursive, searchDir] at hd
    split at hd
    · simp at hd
    · simp only [List.mem_cons] at hd
      rcases hd with hd | hd
      · subst hd
        exact Nat.zero_le _
      · exact (searchItems_log _ fuel entries startSegs 0 [] d hd).2.1
  · intro h0 hmr
    subst h0
    have hempty : (searchItems ⟨exts, imgExts, 0, maxResults, lowerChars query⟩
        fuel entries startSegs 0 []).2 = [] := by
      rw [List.eq_nil_iff_forall_not_mem]
      intro d hd
      have hlog := searchItems_log _ fuel entries startSegs 0 [] d hd
      have h1 := hlog.1
      have h2 := hlog.2.1
      dsimp at h2
      omega
    simp only [searchVideosRecursive, searchDir]
    split
    · next hg =>
      exfalso
      rcases hg with hg | hg
      · exact Nat.not_lt_zero _ hg
      · simp at hg
        omega
    · simp [hempty]

/-- Witness for C7 on a tree with a subdirectory, searched with
`maxDepth = 0`: the only directory read is the start, at depth 0. -/
theorem search_depth_capped_witness :
    (⟨[], 0, 0⟩ : DirRead).depth ≤ 0
    ∧ (searchVideosRecursive [S ".mp4"] [] 0 50
        [(S "movies", FSNode.dir [(S "a.mp4", FSNode.file 500000)]),
         (S "b.mp4", FSNode.file 7)] [] (S "mp4") 100).2
      = [⟨[], 0, 0⟩] :=
  ⟨(search_depth_capped [S ".mp4"] [] 0 50
      [(S "movies", FSNode.dir [(S "a.mp4", FSNode.file 500000)]),
       (S "b.mp4", FSNode.file 7)] [] (S "mp4") 100).1 ⟨[], 0, 0⟩ (by decide),
   (search_depth_capped [S ".mp4"] [] 0 50
      [(S "movies", FSNode.dir [(S "a.mp4", FSNode.file 500000)]),
       (S "b.mp4", FSNode.file 7)] [] (S "mp4") 100).2 rfl (by decide)⟩

/-- **C8** (confirmed). Hidden entries (name starting with `.`) appear
in no listing folder or file record; every search result is a non-hidden
file reached exclusively through non-hidden directories (its path's
intermediate components are all non-hidden), and every directory the
search reads extends the start by non-hidden components only — so a
hidden directory's descendants are neither visited nor returned. On the
concrete tree `/lib/movies/a.mp4` (500000 bytes), `/lib/.hidden/b.mp4`:
listing `movies` returns exactly one file `a.mp4` of size 500000, and a
whole-tree search matching both files returns only `movies/a.mp4`. -/
theorem hidden_entries_excluded :
    (∀ (maxRec : Nat) (exts imgExts : List Chars) (relBase : List Chars)
        (l : List (Chars × FSNode)) (d : Nat) (fo : List FolderEntry)
        (fi : List FileEntry),
        readDirectoryRecursive maxRec exts imgExts relBase l d = .ok fo fi →
        (∀ e ∈ fo, isHidden e.name = false) ∧ (∀ e ∈ fi, isHidden e.name = false))
    ∧ (∀ (exts imgExts : List Chars) (maxDepth fuel : Nat)
        (entries : List (Chars × FSNode)) (startSegs : List Chars)
        (query : Chars) (maxResults : Nat),
        ∀ r ∈ (searchVideosRecursive exts imgExts maxDepth fuel entries
            startSegs query maxResults).1,
          isHidden r.name = false
          ∧ ∃ t, (∀ s ∈ t, isHidden s = false)
              ∧ r.relPath = joinSegs (startSegs ++ (t ++ [r.name])))
    ∧ (∀ (exts imgExts : List Chars) (maxDepth fuel : Nat)
        (entries : List (Chars × FSNode)) (startSegs : List Chars)
        (query : Chars) (maxResults : Nat),
        ∀ d ∈ (searchVideosRecursive exts imgExts maxDepth fuel entries
            startSegs query maxResults).2,
          ∃ t, d.relSegs = startSegs ++ t ∧ ∀ s ∈ t, isHidden s = false)
    ∧ readDirectoryRecursive 10 [S ".mp4"] [] [S "movies"]
        [(S "a.mp4", FSNode.file 500000)] 0
      = .ok [] [⟨S "a.mp4", S "movies/a.mp4", S "video", 500000⟩]
    ∧ (searchVideosRecursive [S ".mp4"] [] 10 50
        [(S "movies", FSNode.dir [(S "a.mp4", FSNode.file 500000)]),
         (S ".hidden", FSNode.dir [(S "b.mp4", FSNode.file 1)])]
        [] (S "mp4") 100).1
      = [⟨S "a.mp4", S "movies/a.mp4", S "movies", S "video", 500000⟩] := by
  refine ⟨?_, ?_, ?_, by decide, by decide⟩
  · intro maxRec exts imgExts relBase l d fo fi h
    unfold readDirectoryRecursive at h
    split at h
    · exact absurd h (by simp)
    · simp only [ListingOut.ok.injEq] at h
      obtain ⟨h1, h2⟩ := h
      subst h1
      subst h2
      exact collectListing_not_hidden exts imgExts relBase l
  · intro exts imgExts maxDepth fuel entries startSegs query maxResults r hr
    simp only [searchVideosRecursive, searchDir] at hr
    split at hr
    · simp at hr
    · rcases searchItems_results _ fuel entries startSegs 0 [] r hr with hacc | hnew
      · simp at hacc
      · obtain ⟨t, n, hts, hn, hrn, hrp, -⟩ := hnew
        subst hrn
        exact ⟨hn, t, hts, hrp⟩
  · intro exts imgExts maxDepth fuel entries startSegs query maxResults d hd
    simp only [searchVideosRecursive, searchDir] at hd
    split at hd
    · simp at hd
    · simp only [List.mem_cons] at hd
      rcases hd with hd | hd
      · subst hd
        exact ⟨[], by simp, by simp⟩
      · obtain ⟨t, ht, -, hts⟩ := searchItems_log_segs _ fuel entries startSegs 0 [] d hd
        exact ⟨t, ht, hts⟩

/-- Witness for C8: the file returned by the scenario's search is not
hidden. -/
theorem hidden_entries_excluded_witness :
    isHidden (SearchResult.name
        ⟨S "a.mp4", S "movies/a.mp4", S "movies", S "video", 500000⟩) = false :=
  (hidden_entries_excluded.2.1 [S ".mp4"] [] 10 50
      [(S "movies", FSNode.dir [(S "a.mp4", FSNode.file 500000)]),
       (S ".hidden", FSNode.dir [(S "b.mp4", FSNode.file 1)])]
      [] (S "mp4") 100
      ⟨S "a.mp4", S "movies/a.mp4", S "movies", S "video", 500000⟩ (by decide)).1

/-- **C9** (confirmed). `path.dirname` never returns the empty string —
the only falsy string — so the `'Home'` fallback of
`path.dirname(relativePath) || 'Home'` is unreachable; and a search
match sitting in the root itself (its relative path has no separator)
gets `folder = "."`, the value `path.dirname` gives a bare filename. -/
theorem search_folder_home_unreachable :
    (∀ p : Chars, dirnameStr p ≠ [])
    ∧ (∀ (exts imgExts : List Chars) (maxDepth fuel : Nat)
        (entries : List (Chars × FSNode)) (startSegs : List Chars)
        (query : Chars) (maxResults : Nat),
        ∀ r ∈ (searchVideosRecursive exts imgExts maxDepth fuel entries
            startSegs query maxResults).1,
          '/' ∉ r.relPath → r.folder = ['.']) := by
  constructor
  · exact dirnameStr_ne_nil
  · intro exts imgExts maxDepth fuel entries startSegs query maxResults r hr hns
    simp only [searchVideosRecursive, searchDir] at hr
    split at hr
    · simp at hr
    · rcases searchItems_results _ fuel entries startSegs 0 [] r hr with hacc | hnew
      · simp at hacc
      · obtain ⟨t, n, -, -, -, -, hrf⟩ := hnew
        rw [hrf]
        unfold mkFolder
        rw [dirnameStr_no_slash hns]
        rfl

/-- Witness for C9: a root-level match `a.mp4` carries `folder = "."`. -/
theorem search_folder_home_unreachable_witness :
    (⟨S "a.mp4", S "a.mp4", S ".", S "video", 5⟩ : SearchResult).folder = ['.'] :=
  search_folder_home_unreachable.2 [S ".mp4"] [] 10 50
    [(S "a.mp4", FSNode.file 5)] [] (S "mp4") 100
    ⟨S "a.mp4", S "a.mp4", S ".", S "video", 5⟩ (by decide) (by decide)

/-- **C10** (confirmed). The `{error: 'Maximum recursion depth exceeded'}`
branch of `readDirectoryRecursive` is unreachable from `/api/browse`: the
handler always calls it with `currentDepth = 0`, the function never
recurses, and `0 > maxRecursionDepth` is false for every configured
depth, so a browse response is never the serialized error object. -/
theorem browse_never_depth_error (maxRecursionDepth : Nat)
    (exts imgExts : List Chars) (root : Chars)
    (fs : List (Chars × FSNode)) (qpath : Chars) :
    browseHandler maxRecursionDepth exts imgExts root fs qpath ≠ .depthErrJson := by
  unfold browseHandler
  cases hs : sanitizePath root qpath with
  | none => simp
  | some full =>
    cases hl : lookupNode (.dir fs) (relSegsOf (pathResolve1 root) full) with
    | none => simp [hl]
    | some n =>
      cases n with
      | file sz => simp [hl]
      | dir entries =>
        simp only [readDirectoryRecursive, Nat.not_lt_zero, gt_iff_lt, if_neg,
          Nat.not_lt.mpr (Nat.zero_le _)]
        simp [hl]

/-- Witness for C10 at a concrete configuration and tree. -/
theorem browse_never_depth_error_witness :
    browseHandler 10 [S ".mp4"] [] (S "/lib")
        [(S "movies", FSNode.dir [(S "a.mp4", FSNode.file 500000)])]
        (S "movies") ≠ .depthErrJson :=
  browse_never_depth_error 10 [S ".mp4"] [] (S "/lib")
    [(S "movies", FSNode.dir [(S "a.mp4", FSNode.file 500000)])] (S "movies")

end VideoLibrary

